import Mathlib

/-!
Verification development for the `murray-lab/control` notebooks.

The repository consists of instructional notebooks.  The visible scaffolding
(parameter set-up, the Euler ODE loop of the eigendecomposition notebook) is
embedded directly from the source; the bodies of the backward-Riccati loop and
of the Kalman-filter update loop are left blank in the notebooks as student
exercises, so those recursions are modelled from the specification's equations
(section 4 of the spec), which the notebooks' markdown cells also state.

Matrices are embedded over `ℚ` where the claims are algebraic (so concrete
instances evaluate), and over `ℝ` where a claim speaks about limits or about
the analytic solution `exp (A t) x0`.
-/

namespace Ctrl

open Matrix

/-- Positive semi-definiteness of a rational matrix, stated via the quadratic
form: `M` is PSD when `xᵀ M x ≥ 0` for every vector `x`. -/
def PSD {n : ℕ} (M : Matrix (Fin n) (Fin n) ℚ) : Prop :=
  ∀ x : Fin n → ℚ, 0 ≤ x ⬝ᵥ (M *ᵥ x)

theorem PSD.add {n : ℕ} {M N : Matrix (Fin n) (Fin n) ℚ} (hM : PSD M) (hN : PSD N) :
    PSD (M + N) := by
  intro x
  have h1 := hM x
  have h2 := hN x
  simpa [Matrix.add_mulVec, Matrix.dotProduct_add] using add_nonneg h1 h2

theorem PSD.zero {n : ℕ} : PSD (0 : Matrix (Fin n) (Fin n) ℚ) := by
  intro x
  simp

/-- Congruence preserves positive semi-definiteness: `A M Aᵀ` is PSD when `M` is. -/
theorem PSD.congr {n k : ℕ} {M : Matrix (Fin n) (Fin n) ℚ} (hM : PSD M)
    (A : Matrix (Fin k) (Fin n) ℚ) : PSD (A * M * Aᵀ) := by
  intro x
  have key : x ⬝ᵥ ((A * M * Aᵀ) *ᵥ x) = (Aᵀ *ᵥ x) ⬝ᵥ (M *ᵥ (Aᵀ *ᵥ x)) := by
    rw [← Matrix.mulVec_mulVec, ← Matrix.mulVec_mulVec, Matrix.dotProduct_mulVec,
      Matrix.mulVec_transpose]
  rw [key]
  exact hM (Aᵀ *ᵥ x)

/-- Modelled from the spec: the backward-Riccati loop body of `control` in the
tracking notebook is left blank as an exercise.  This is the stated update
`K[t] = K[t+1] + dt*(-I - Aᵀ K[t+1] - K[t+1] A + (1/lambda) K[t+1] B Bᵀ K[t+1])`
of spec section 4.1, indexed by the number `j` of steps taken backward from the
terminal condition `K[T] = 0`, so that `riccatiK A B dt lam j = K[T - j]`. -/
def riccatiK {n m : ℕ} (A : Matrix (Fin n) (Fin n) ℚ) (B : Matrix (Fin n) (Fin m) ℚ)
    (dt lam : ℚ) : ℕ → Matrix (Fin n) (Fin n) ℚ
  | 0 => 0
  | j + 1 =>
      let K := riccatiK A B dt lam j
      K + dt • (-1 - Aᵀ * K - K * A + lam⁻¹ • (K * B * Bᵀ * K))

/-- C1 (amended): the Riccati iterates of the stated backward update are
symmetric at every step, for every `A`, `B`, `dt` and `lambda`. -/
theorem C1_riccatiK_symm {n m : ℕ} (A : Matrix (Fin n) (Fin n) ℚ)
    (B : Matrix (Fin n) (Fin m) ℚ) (dt lam : ℚ) (j : ℕ) :
    (riccatiK A B dt lam j).IsSymm := by
  induction j with
  | zero =>
      show (riccatiK A B dt lam 0)ᵀ = riccatiK A B dt lam 0
      simp [riccatiK]
  | succ j ih =>
      have hK : (riccatiK A B dt lam j)ᵀ = riccatiK A B dt lam j := ih
      show (riccatiK A B dt lam (j + 1))ᵀ = riccatiK A B dt lam (j + 1)
      simp only [riccatiK, Matrix.transpose_add, Matrix.transpose_sub, Matrix.transpose_smul,
        Matrix.transpose_neg, Matrix.transpose_one, Matrix.transpose_mul,
        Matrix.transpose_transpose, hK, Matrix.mul_assoc]
      abel_nf

/-- C1 as stated is false: one backward step from the terminal condition
`K[T] = 0` under the stated update gives `K[T-1] = -dt • I`, which is not
positive semi-definite (instance: `n = m = 1`, `A = 0`, `B = 0`, `dt = 1`,
`lambda = 1`). -/
theorem C1_counterexample :
    ¬ ((riccatiK (0 : Matrix (Fin 1) (Fin 1) ℚ) (0 : Matrix (Fin 1) (Fin 1) ℚ) 1 1 1).IsSymm ∧
        PSD (riccatiK (0 : Matrix (Fin 1) (Fin 1) ℚ) (0 : Matrix (Fin 1) (Fin 1) ℚ) 1 1 1)) := by
  rintro ⟨-, hpsd⟩
  have hval : riccatiK (0 : Matrix (Fin 1) (Fin 1) ℚ) (0 : Matrix (Fin 1) (Fin 1) ℚ) 1 1 1
      = -1 := by
    show (0 : Matrix (Fin 1) (Fin 1) ℚ)
        + (1 : ℚ) • (-1 - (0 : Matrix (Fin 1) (Fin 1) ℚ)ᵀ * 0 - 0 * 0
          + (1 : ℚ)⁻¹ • ((0 : Matrix (Fin 1) (Fin 1) ℚ) * 0 * (0 : Matrix (Fin 1) (Fin 1) ℚ)ᵀ * 0))
        = -1
    simp
  have h := hpsd ![1]
  rw [hval] at h
  simp [Matrix.mulVec, Matrix.dotProduct] at h
  exact absurd h (by norm_num)

/-- Symmetry is preserved by congruence: `M N Mᵀ` is symmetric when `N` is. -/
theorem IsSymm.conj {n k : ℕ} (M : Matrix (Fin k) (Fin n) ℚ) {N : Matrix (Fin n) (Fin n) ℚ}
    (hN : N.IsSymm) : (M * N * Mᵀ).IsSymm := by
  show (M * N * Mᵀ)ᵀ = M * N * Mᵀ
  simp [Matrix.transpose_mul, Matrix.transpose_transpose, hN.eq, Matrix.mul_assoc]

/-- The identity matrix is positive semi-definite. -/
theorem PSD.one {n : ℕ} : PSD (1 : Matrix (Fin n) (Fin n) ℚ) := by
  intro x
  rw [Matrix.one_mulVec]
  exact Finset.sum_nonneg fun i _ => mul_self_nonneg _

/-- Modelled from the spec: the Kalman-filter update loop of the harmonic
oscillator notebook is left blank as an exercise.  This is the error-covariance
recursion of spec section 4.2: `P_pred = A P[t] Aᵀ + Rv`,
`L = P_pred Cᵀ (C P_pred Cᵀ + Rw)⁻¹`, `P[t+1] = (I - L C) P_pred`. -/
noncomputable def kalmanP {n m : ℕ} (A : Matrix (Fin n) (Fin n) ℚ) (C : Matrix (Fin m) (Fin n) ℚ)
    (Rv : Matrix (Fin n) (Fin n) ℚ) (Rw : Matrix (Fin m) (Fin m) ℚ)
    (P0 : Matrix (Fin n) (Fin n) ℚ) : ℕ → Matrix (Fin n) (Fin n) ℚ
  | 0 => P0
  | t + 1 =>
      let Ppred := A * kalmanP A C Rv Rw P0 t * Aᵀ + Rv
      let S := C * Ppred * Cᵀ + Rw
      let L := Ppred * Cᵀ * S⁻¹
      (1 - L * C) * Ppred

/-- The innovation covariance `C P_pred Cᵀ + Rw` entering the gain computation
of the step from `t` to `t + 1`. -/
noncomputable def innovation {n m : ℕ} (A : Matrix (Fin n) (Fin n) ℚ) (C : Matrix (Fin m) (Fin n) ℚ)
    (Rv : Matrix (Fin n) (Fin n) ℚ) (Rw : Matrix (Fin m) (Fin m) ℚ)
    (P0 : Matrix (Fin n) (Fin n) ℚ) (t : ℕ) : Matrix (Fin m) (Fin m) ℚ :=
  C * (A * kalmanP A C Rv Rw P0 t * Aᵀ + Rv) * Cᵀ + Rw

/-- The measurement update written in Joseph form: with the optimal gain
`L = P Cᵀ S⁻¹` for a symmetric predicted covariance `P` and an invertible
innovation covariance `S = C P Cᵀ + Rw`, the updated covariance `(1 - L C) P`
equals `(1 - L C) P (1 - L C)ᵀ + L Rw Lᵀ`. -/
theorem joseph_form {n m : ℕ} (P : Matrix (Fin n) (Fin n) ℚ) (C : Matrix (Fin m) (Fin n) ℚ)
    (Rw : Matrix (Fin m) (Fin m) ℚ) (hP : P.IsSymm) (hRw : Rw.IsSymm)
    (hS : IsUnit (C * P * Cᵀ + Rw).det) :
    (1 - P * Cᵀ * (C * P * Cᵀ + Rw)⁻¹ * C) * P
      = (1 - P * Cᵀ * (C * P * Cᵀ + Rw)⁻¹ * C) * P
          * (1 - P * Cᵀ * (C * P * Cᵀ + Rw)⁻¹ * C)ᵀ
        + P * Cᵀ * (C * P * Cᵀ + Rw)⁻¹ * Rw * (P * Cᵀ * (C * P * Cᵀ + Rw)⁻¹)ᵀ := by
  set S := C * P * Cᵀ + Rw with hSdef
  set L := P * Cᵀ * S⁻¹ with hLdef
  have hSsymm : Sᵀ = S := by
    rw [hSdef]
    simp [Matrix.transpose_add, Matrix.transpose_mul, Matrix.transpose_transpose,
      hP.eq, hRw.eq, Matrix.mul_assoc]
  have hSinv : (S⁻¹)ᵀ = S⁻¹ := by
    rw [Matrix.transpose_nonsing_inv, hSsymm]
  have hLT : Lᵀ = S⁻¹ * (C * P) := by
    rw [hLdef]
    simp [Matrix.transpose_mul, Matrix.transpose_transpose, hSinv, hP.eq, Matrix.mul_assoc]
  have e1 : L * S = P * Cᵀ := by
    rw [hLdef, Matrix.mul_assoc, Matrix.nonsing_inv_mul _ hS, Matrix.mul_one]
  have e2 : P * Cᵀ * Lᵀ = L * (C * P) := by
    rw [hLT, hLdef]
    simp [Matrix.mul_assoc]
  have hRwS : Rw = S - C * P * Cᵀ := by
    rw [hSdef]
    abel
  have htr : (1 - L * C)ᵀ = 1 - Cᵀ * Lᵀ := by
    simp [Matrix.transpose_sub, Matrix.transpose_one, Matrix.transpose_mul]
  rw [htr]
  conv_rhs => rw [hRwS]
  have e3 : L * (S - C * P * Cᵀ) * Lᵀ = L * (C * P) - L * (C * P * Cᵀ) * Lᵀ := by
    have h4 : L * S * Lᵀ = L * (C * P) := by
      rw [e1, e2]
    rw [Matrix.mul_sub, Matrix.sub_mul, h4]
  rw [e3]
  have e2r : P * (Cᵀ * Lᵀ) = L * (C * P) := by
    rw [← Matrix.mul_assoc]
    exact e2
  simp only [Matrix.mul_sub, Matrix.sub_mul, Matrix.mul_one, Matrix.one_mul, Matrix.mul_assoc]
  rw [e2r]
  abel

/-- C2: if `P0`, `Rv`, `Rw` are symmetric positive semi-definite and every
innovation covariance along the run is invertible, then every error covariance
`P[t]` produced by the Kalman recursion is symmetric and positive
semi-definite, for every `A` and `C`. -/
theorem C2_kalmanP_psd {n m : ℕ} (A : Matrix (Fin n) (Fin n) ℚ) (C : Matrix (Fin m) (Fin n) ℚ)
    (Rv : Matrix (Fin n) (Fin n) ℚ) (Rw : Matrix (Fin m) (Fin m) ℚ)
    (P0 : Matrix (Fin n) (Fin n) ℚ)
    (hP0s : P0.IsSymm) (hP0 : PSD P0) (hRvs : Rv.IsSymm) (hRv : PSD Rv)
    (hRws : Rw.IsSymm) (hRw : PSD Rw)
    (hinv : ∀ t, IsUnit (innovation A C Rv Rw P0 t).det) (t : ℕ) :
    (kalmanP A C Rv Rw P0 t).IsSymm ∧ PSD (kalmanP A C Rv Rw P0 t) := by
  induction t with
  | zero => exact ⟨hP0s, hP0⟩
  | succ t ih =>
      obtain ⟨hsym, hpsd⟩ := ih
      have hPpred_s : (A * kalmanP A C Rv Rw P0 t * Aᵀ + Rv).IsSymm :=
        (IsSymm.conj A hsym).add hRvs
      have hPpred : PSD (A * kalmanP A C Rv Rw P0 t * Aᵀ + Rv) :=
        (hpsd.congr A).add hRv
      have hS : IsUnit (C * (A * kalmanP A C Rv Rw P0 t * Aᵀ + Rv) * Cᵀ + Rw).det := hinv t
      have hstep : kalmanP A C Rv Rw P0 (t + 1)
          = (1 - (A * kalmanP A C Rv Rw P0 t * Aᵀ + Rv) * Cᵀ
                * (C * (A * kalmanP A C Rv Rw P0 t * Aᵀ + Rv) * Cᵀ + Rw)⁻¹ * C)
              * (A * kalmanP A C Rv Rw P0 t * Aᵀ + Rv) := by
        simp only [kalmanP]
      rw [hstep, joseph_form _ C Rw hPpred_s hRws hS]
      exact ⟨(IsSymm.conj _ hPpred_s).add (IsSymm.conj _ hRws),
        (hPpred.congr _).add (hRw.congr _)⟩

/-- Witness for C2 at a concrete run: `n = m = 1`, `A = 1`, `C = 0`, `Rv = 0`,
`Rw = 1`, `P0 = 0`, three steps. -/
theorem C2_kalmanP_psd_witness :
    (kalmanP (1 : Matrix (Fin 1) (Fin 1) ℚ) (0 : Matrix (Fin 1) (Fin 1) ℚ) 0 1 0 3).IsSymm ∧
      PSD (kalmanP (1 : Matrix (Fin 1) (Fin 1) ℚ) (0 : Matrix (Fin 1) (Fin 1) ℚ) 0 1 0 3) :=
  C2_kalmanP_psd 1 0 0 1 0 Matrix.isSymm_zero PSD.zero Matrix.isSymm_zero PSD.zero
    Matrix.isSymm_one PSD.one
    (by
      intro t
      simp [innovation])
    3

/-- Modelled from the spec: the state-estimate recursion of the Kalman update
loop (blank in the notebook), spec section 4.2: `xhat_pred = A xhat[t] + B u[t]`,
`xhat[t+1] = xhat_pred + L (y[t+1] - C xhat_pred)` with the gain
`L = P_pred Cᵀ (C P_pred Cᵀ + Rw)⁻¹` built from the covariance recursion. -/
noncomputable def kalmanXhat {n m p : ℕ} (A : Matrix (Fin n) (Fin n) ℚ)
    (B : Matrix (Fin n) (Fin p) ℚ) (C : Matrix (Fin m) (Fin n) ℚ)
    (Rv : Matrix (Fin n) (Fin n) ℚ) (Rw : Matrix (Fin m) (Fin m) ℚ)
    (P0 : Matrix (Fin n) (Fin n) ℚ) (xhat0 : Fin n → ℚ)
    (u : ℕ → Fin p → ℚ) (y : ℕ → Fin m → ℚ) : ℕ → Fin n → ℚ
  | 0 => xhat0
  | t + 1 =>
      let Ppred := A * kalmanP A C Rv Rw P0 t * Aᵀ + Rv
      let S := C * Ppred * Cᵀ + Rw
      let L := Ppred * Cᵀ * S⁻¹
      let xpred := A *ᵥ kalmanXhat A B C Rv Rw P0 xhat0 u y t + B *ᵥ u t
      xpred + L *ᵥ (y (t + 1) - C *ᵥ xpred)

/-- The pair of outputs the Kalman filter returns at time `t`: the state
estimate `xhat[t]` and the error covariance `P[t]` (spec section 4.2
contract). -/
noncomputable def kalmanOut {n m p : ℕ} (A : Matrix (Fin n) (Fin n) ℚ)
    (B : Matrix (Fin n) (Fin p) ℚ) (C : Matrix (Fin m) (Fin n) ℚ)
    (Rv : Matrix (Fin n) (Fin n) ℚ) (Rw : Matrix (Fin m) (Fin m) ℚ)
    (P0 : Matrix (Fin n) (Fin n) ℚ) (xhat0 : Fin n → ℚ)
    (u : ℕ → Fin p → ℚ) (y : ℕ → Fin m → ℚ) (t : ℕ) :
    (Fin n → ℚ) × Matrix (Fin n) (Fin n) ℚ :=
  (kalmanXhat A B C Rv Rw P0 xhat0 u y t, kalmanP A C Rv Rw P0 t)

/-- The simulated plant of the notebook scaffolding with the dynamics noise
set to zero: `x[t+1] = A x[t] + B u[t]`. -/
def plant {n p : ℕ} (A : Matrix (Fin n) (Fin n) ℚ) (B : Matrix (Fin n) (Fin p) ℚ)
    (u : ℕ → Fin p → ℚ) (x0 : Fin n → ℚ) : ℕ → Fin n → ℚ
  | 0 => x0
  | t + 1 => A *ᵥ plant A B u x0 t + B *ᵥ u t

/-- C4 (amended): if additionally the initial covariance is `P0 = 0` (as in
the notebook's initialization), then with `Rv = 0` and `xhat[0] = x[0]` the
filter reproduces the noiseless plant exactly: `P[t] = 0` and
`xhat[t] = x[t]` for every `t`, whatever the measurement sequence `y` is. -/
theorem C4_noiseless_exact {n m p : ℕ} (A : Matrix (Fin n) (Fin n) ℚ)
    (B : Matrix (Fin n) (Fin p) ℚ) (C : Matrix (Fin m) (Fin n) ℚ)
    (Rv : Matrix (Fin n) (Fin n) ℚ) (Rw : Matrix (Fin m) (Fin m) ℚ)
    (P0 : Matrix (Fin n) (Fin n) ℚ) (xhat0 x0 : Fin n → ℚ)
    (u : ℕ → Fin p → ℚ) (y : ℕ → Fin m → ℚ)
    (hRv : Rv = 0) (hP0 : P0 = 0) (hx : xhat0 = x0) (t : ℕ) :
    kalmanP A C Rv Rw P0 t = 0 ∧
      kalmanXhat A B C Rv Rw P0 xhat0 u y t = plant A B u x0 t := by
  subst hRv hP0 hx
  induction t with
  | zero => exact ⟨rfl, rfl⟩
  | succ t ih =>
      obtain ⟨hP, hxh⟩ := ih
      constructor
      · simp [kalmanP, hP]
      · simp [kalmanXhat, plant, hP, hxh]

/-- Witness for C4 (amended) at a concrete run: `n = m = p = 1`, `A = 1`,
`B = 0`, `C = 1`, `Rw = 1`, measurements `y[t] = 2` (noisy observation of the
plant), two steps. -/
theorem C4_noiseless_exact_witness :
    kalmanP (1 : Matrix (Fin 1) (Fin 1) ℚ) (1 : Matrix (Fin 1) (Fin 1) ℚ) 0 1 0 2 = 0 ∧
      kalmanXhat (1 : Matrix (Fin 1) (Fin 1) ℚ) (0 : Matrix (Fin 1) (Fin 1) ℚ) 1 0 1 0 ![1]
          (fun _ => ![0]) (fun _ => ![2]) 2
        = plant 1 (0 : Matrix (Fin 1) (Fin 1) ℚ) (fun _ => ![0]) ![1] 2 :=
  C4_noiseless_exact 1 0 1 0 1 0 ![1] ![1] (fun _ => ![0]) (fun _ => ![2]) rfl rfl rfl 2

/-- C4 as stated is false: the filter's initial covariance `P0` is an input of
the contract, and with `P0 = I` (here `n = m = p = 1`, `A = 1`, `B = 0`,
`C = 1`, `Rv = 0`, `Rw = 0`, `xhat[0] = x[0] = 1`, noisy measurements
`y[t] = 2`) the run violates both conclusions: `P[0] = 1 ≠ 0` and
`xhat[1] = 2 ≠ 1 = x[1]`. -/
theorem C4_counterexample :
    ¬ (∀ t, kalmanP (1 : Matrix (Fin 1) (Fin 1) ℚ) (1 : Matrix (Fin 1) (Fin 1) ℚ) 0 0 1 t = 0 ∧
        kalmanXhat (1 : Matrix (Fin 1) (Fin 1) ℚ) (0 : Matrix (Fin 1) (Fin 1) ℚ) 1 0 0 1 ![1]
            (fun _ => ![0]) (fun _ => ![2]) t
          = plant 1 (0 : Matrix (Fin 1) (Fin 1) ℚ) (fun _ => ![0]) ![1] t) := by
  intro h
  have h1 := (h 1).2
  have hxhat : kalmanXhat (1 : Matrix (Fin 1) (Fin 1) ℚ) (0 : Matrix (Fin 1) (Fin 1) ℚ) 1 0 0 1
      ![1] (fun _ => ![0]) (fun _ => ![2]) 1 = ![2] := by
    simp [kalmanXhat, kalmanP]
  have hplant : plant (1 : Matrix (Fin 1) (Fin 1) ℚ) (0 : Matrix (Fin 1) (Fin 1) ℚ)
      (fun _ => ![0]) ![1] 1 = ![1] := by
    simp [plant]
  rw [hxhat, hplant] at h1
  have := congrFun h1 0
  norm_num at this

/-- C5 (amended): with an exactly noiseless observation (`Rw = 0`,
`y[t] = C x[t]`) and a square invertible observation matrix `C`, if every
predicted covariance along the run is invertible then the estimate equals the
true state from the first measurement update on: `xhat[t] = x[t]` for every
`t ≥ 1`, whatever the initial guess `xhat[0]` is. -/
theorem C5_full_rank_exact {n p : ℕ} (A : Matrix (Fin n) (Fin n) ℚ)
    (B : Matrix (Fin n) (Fin p) ℚ) (C : Matrix (Fin n) (Fin n) ℚ)
    (Rv : Matrix (Fin n) (Fin n) ℚ) (P0 : Matrix (Fin n) (Fin n) ℚ)
    (xhat0 x0 : Fin n → ℚ) (u : ℕ → Fin p → ℚ)
    (hC : IsUnit C.det)
    (hPpred : ∀ t, IsUnit (A * kalmanP A C Rv 0 P0 t * Aᵀ + Rv).det)
    (t : ℕ) (ht : 1 ≤ t) :
    kalmanXhat A B C Rv 0 P0 xhat0 u (fun k => C *ᵥ plant A B u x0 k) t
      = plant A B u x0 t := by
  obtain ⟨s, rfl⟩ : ∃ s, t = s + 1 := ⟨t - 1, (Nat.succ_pred_eq_of_pos ht).symm⟩
  have hCT : IsUnit (Cᵀ).det := by
    rw [Matrix.det_transpose]
    exact hC
  set Ppred := A * kalmanP A C Rv 0 P0 s * Aᵀ + Rv with hPdef
  have hLC : Ppred * Cᵀ * (C * Ppred * Cᵀ + 0)⁻¹ * C = 1 := by
    rw [add_zero, Matrix.mul_inv_rev, Matrix.mul_inv_rev, Matrix.mul_assoc Ppred Cᵀ,
      Matrix.mul_nonsing_inv_cancel_left _ _ hCT,
      Matrix.mul_nonsing_inv_cancel_left _ _ (hPpred s)]
    exact Matrix.nonsing_inv_mul _ hC
  show (A *ᵥ kalmanXhat A B C Rv 0 P0 xhat0 u (fun k => C *ᵥ plant A B u x0 k) s + B *ᵥ u s)
      + (Ppred * Cᵀ * (C * Ppred * Cᵀ + 0)⁻¹)
          *ᵥ (C *ᵥ plant A B u x0 (s + 1)
            - C *ᵥ (A *ᵥ kalmanXhat A B C Rv 0 P0 xhat0 u (fun k => C *ᵥ plant A B u x0 k) s
              + B *ᵥ u s))
      = plant A B u x0 (s + 1)
  rw [← Matrix.mulVec_sub, Matrix.mulVec_mulVec, hLC, Matrix.one_mulVec]
  abel

/-- Witness for C5 (amended) at a concrete run: `n = p = 1`, `A = 0`, `C = 1`,
`Rv = 1`, initial guess `xhat[0] = 0` different from `x[0] = 3`; the estimate
matches the true state at `t = 1`. -/
theorem C5_full_rank_exact_witness :
    kalmanXhat (0 : Matrix (Fin 1) (Fin 1) ℚ) (0 : Matrix (Fin 1) (Fin 1) ℚ) 1 1 0 0 ![0]
        (fun _ => ![0])
        (fun k => (1 : Matrix (Fin 1) (Fin 1) ℚ)
          *ᵥ plant 0 (0 : Matrix (Fin 1) (Fin 1) ℚ) (fun _ => ![0]) ![3] k) 1
      = plant (0 : Matrix (Fin 1) (Fin 1) ℚ) (0 : Matrix (Fin 1) (Fin 1) ℚ)
          (fun _ => ![0]) ![3] 1 :=
  C5_full_rank_exact 0 0 1 1 0 ![0] ![3] (fun _ => ![0])
    (by simp)
    (by
      intro t
      simp)
    1 le_rfl

/-- C5 as stated is false for the notebook's single-row observation matrix
`C = [1, 0]` (full row rank): with a noiseless position measurement the
velocity component of the state stays invisible.  Concrete run with `n = 2`,
`A = I`, `B = 0`, `Rv = 0`, `P0 = I`, `x[0] = (0, 1)`, `xhat[0] = 0` and
`y[t] = C x[t]`: at `t = 1` the estimate is `(0, 0) ≠ (0, 1)`, both at
`Rw = 0` exactly and at the nearby `Rw = 1/1000000`, so `xhat[1]` does not
approach `x[1]` in the limit `Rw → 0`. -/
theorem C5_counterexample :
    (kalmanXhat (1 : Matrix (Fin 2) (Fin 2) ℚ) (0 : Matrix (Fin 2) (Fin 1) ℚ)
        (Matrix.of ![![(1 : ℚ), 0]]) 0 0 1 ![0, 0] (fun _ => ![0])
        (fun k => Matrix.of ![![(1 : ℚ), 0]]
          *ᵥ plant 1 (0 : Matrix (Fin 2) (Fin 1) ℚ) (fun _ => ![0]) ![0, 1] k) 1
      ≠ plant (1 : Matrix (Fin 2) (Fin 2) ℚ) (0 : Matrix (Fin 2) (Fin 1) ℚ)
          (fun _ => ![0]) ![0, 1] 1) ∧
    (kalmanXhat (1 : Matrix (Fin 2) (Fin 2) ℚ) (0 : Matrix (Fin 2) (Fin 1) ℚ)
        (Matrix.of ![![(1 : ℚ), 0]]) 0 (((1 : ℚ)/1000000) • 1) 1 ![0, 0] (fun _ => ![0])
        (fun k => Matrix.of ![![(1 : ℚ), 0]]
          *ᵥ plant 1 (0 : Matrix (Fin 2) (Fin 1) ℚ) (fun _ => ![0]) ![0, 1] k) 1
      ≠ plant (1 : Matrix (Fin 2) (Fin 2) ℚ) (0 : Matrix (Fin 2) (Fin 1) ℚ)
          (fun _ => ![0]) ![0, 1] 1) := by
  have hplant1 : plant (1 : Matrix (Fin 2) (Fin 2) ℚ) (0 : Matrix (Fin 2) (Fin 1) ℚ)
      (fun _ => ![0]) ![0, 1] 1 = ![0, 1] := by
    simp [plant]
  have hinnov : Matrix.of ![![(1 : ℚ), 0]]
      *ᵥ plant (1 : Matrix (Fin 2) (Fin 2) ℚ) (0 : Matrix (Fin 2) (Fin 1) ℚ)
        (fun _ => ![0]) ![0, 1] 1
      - Matrix.of ![![(1 : ℚ), 0]]
        *ᵥ ((1 : Matrix (Fin 2) (Fin 2) ℚ) *ᵥ (![0, 0] : Fin 2 → ℚ)
          + (0 : Matrix (Fin 2) (Fin 1) ℚ) *ᵥ (![0] : Fin 1 → ℚ)) = 0 := by
    rw [hplant1]
    funext i
    fin_cases i
    simp [Matrix.mulVec, Matrix.dotProduct]
  constructor
  · intro h
    rw [hplant1] at h
    have hx : kalmanXhat (1 : Matrix (Fin 2) (Fin 2) ℚ) (0 : Matrix (Fin 2) (Fin 1) ℚ)
        (Matrix.of ![![(1 : ℚ), 0]]) 0 0 1 ![0, 0] (fun _ => ![0])
        (fun k => Matrix.of ![![(1 : ℚ), 0]]
          *ᵥ plant 1 (0 : Matrix (Fin 2) (Fin 1) ℚ) (fun _ => ![0]) ![0, 1] k) 1
        = ![0, 0] := by
      show ((1 : Matrix (Fin 2) (Fin 2) ℚ) *ᵥ ![0, 0]
            + (0 : Matrix (Fin 2) (Fin 1) ℚ) *ᵥ ![0])
          + _ *ᵥ (Matrix.of ![![(1 : ℚ), 0]]
              *ᵥ plant 1 (0 : Matrix (Fin 2) (Fin 1) ℚ) (fun _ => ![0]) ![0, 1] 1
            - Matrix.of ![![(1 : ℚ), 0]]
              *ᵥ ((1 : Matrix (Fin 2) (Fin 2) ℚ) *ᵥ ![0, 0]
                + (0 : Matrix (Fin 2) (Fin 1) ℚ) *ᵥ ![0])) = ![0, 0]
      rw [hinnov, Matrix.mulVec_zero]
      funext i
      fin_cases i <;> simp [Matrix.mulVec, Matrix.dotProduct]
    rw [hx] at h
    have := congrFun h 1
    norm_num at this
  · intro h
    rw [hplant1] at h
    have hx : kalmanXhat (1 : Matrix (Fin 2) (Fin 2) ℚ) (0 : Matrix (Fin 2) (Fin 1) ℚ)
        (Matrix.of ![![(1 : ℚ), 0]]) 0 (((1 : ℚ)/1000000) • 1) 1 ![0, 0] (fun _ => ![0])
        (fun k => Matrix.of ![![(1 : ℚ), 0]]
          *ᵥ plant 1 (0 : Matrix (Fin 2) (Fin 1) ℚ) (fun _ => ![0]) ![0, 1] k) 1
        = ![0, 0] := by
      show ((1 : Matrix (Fin 2) (Fin 2) ℚ) *ᵥ ![0, 0]
            + (0 : Matrix (Fin 2) (Fin 1) ℚ) *ᵥ ![0])
          + _ *ᵥ (Matrix.of ![![(1 : ℚ), 0]]
              *ᵥ plant 1 (0 : Matrix (Fin 2) (Fin 1) ℚ) (fun _ => ![0]) ![0, 1] 1
            - Matrix.of ![![(1 : ℚ), 0]]
              *ᵥ ((1 : Matrix (Fin 2) (Fin 2) ℚ) *ᵥ ![0, 0]
                + (0 : Matrix (Fin 2) (Fin 1) ℚ) *ᵥ ![0])) = ![0, 0]
      rw [hinnov, Matrix.mulVec_zero]
      funext i
      fin_cases i <;> simp [Matrix.mulVec, Matrix.dotProduct]
    rw [hx] at h
    have := congrFun h 1
    norm_num at this

/-- C6: the Kalman filter is causal.  If two measurement sequences agree on
indices `0..t` (all other inputs equal), the filter's outputs
`(xhat[k], P[k])` coincide for every `k ≤ t`; in the embedding `P` does not
consume `y` at all. -/
theorem C6_kalman_causal {n m p : ℕ} (A : Matrix (Fin n) (Fin n) ℚ)
    (B : Matrix (Fin n) (Fin p) ℚ) (C : Matrix (Fin m) (Fin n) ℚ)
    (Rv : Matrix (Fin n) (Fin n) ℚ) (Rw : Matrix (Fin m) (Fin m) ℚ)
    (P0 : Matrix (Fin n) (Fin n) ℚ) (xhat0 : Fin n → ℚ)
    (u : ℕ → Fin p → ℚ) (y yAlt : ℕ → Fin m → ℚ) (t : ℕ)
    (hagree : ∀ k, k ≤ t → y k = yAlt k) (k : ℕ) (hk : k ≤ t) :
    kalmanOut A B C Rv Rw P0 xhat0 u y k = kalmanOut A B C Rv Rw P0 xhat0 u yAlt k := by
  induction k with
  | zero => rfl
  | succ k ih =>
      have hx : kalmanXhat A B C Rv Rw P0 xhat0 u y k
          = kalmanXhat A B C Rv Rw P0 xhat0 u yAlt k :=
        congrArg Prod.fst (ih (le_trans (Nat.le_succ k) hk))
      unfold kalmanOut
      simp only [kalmanXhat, hx, hagree (k + 1) hk]

/-- Witness for C6 at a concrete run: two measurement sequences agreeing up to
`t = 1` and differing afterwards give the same output at `k = 1`. -/
theorem C6_kalman_causal_witness :
    kalmanOut (1 : Matrix (Fin 1) (Fin 1) ℚ) (1 : Matrix (Fin 1) (Fin 1) ℚ) 1 1 1 1 ![0]
        (fun _ => ![0]) (fun k => ![(k : ℚ)]) 1
      = kalmanOut (1 : Matrix (Fin 1) (Fin 1) ℚ) (1 : Matrix (Fin 1) (Fin 1) ℚ) 1 1 1 1 ![0]
          (fun _ => ![0]) (fun k => if k ≤ 1 then ![(k : ℚ)] else ![99]) 1 :=
  C6_kalman_causal 1 1 1 1 1 1 ![0] (fun _ => ![0]) (fun k => ![(k : ℚ)])
    (fun k => if k ≤ 1 then ![(k : ℚ)] else ![99]) 1
    (by
      intro k hk
      simp [hk])
    1 le_rfl

/-- Modelled from the spec: sections 4.2 and 7 require the gain computation to
fail with a fatal singular-matrix error when the innovation covariance
`C P_pred Cᵀ + Rw` is not invertible, aborting the call with no partial
result.  The checked run therefore returns either the time-`T` output pair or
the error, and stops at the first singular innovation. -/
noncomputable def kalmanChecked {n m p : ℕ} (A : Matrix (Fin n) (Fin n) ℚ)
    (B : Matrix (Fin n) (Fin p) ℚ) (C : Matrix (Fin m) (Fin n) ℚ)
    (Rv : Matrix (Fin n) (Fin n) ℚ) (Rw : Matrix (Fin m) (Fin m) ℚ)
    (P0 : Matrix (Fin n) (Fin n) ℚ) (xhat0 : Fin n → ℚ)
    (u : ℕ → Fin p → ℚ) (y : ℕ → Fin m → ℚ) :
    ℕ → Except String ((Fin n → ℚ) × Matrix (Fin n) (Fin n) ℚ)
  | 0 => Except.ok (xhat0, P0)
  | t + 1 =>
      match kalmanChecked A B C Rv Rw P0 xhat0 u y t with
      | Except.error e => Except.error e
      | Except.ok (xh, P) =>
          let Ppred := A * P * Aᵀ + Rv
          let S := C * Ppred * Cᵀ + Rw
          if S.det = 0 then Except.error "singular matrix"
          else
            let L := Ppred * Cᵀ * S⁻¹
            let xpred := A *ᵥ xh + B *ᵥ u t
            Except.ok (xpred + L *ᵥ (y (t + 1) - C *ᵥ xpred), (1 - L * C) * Ppred)

theorem kalmanChecked_ok {n m p : ℕ} (A : Matrix (Fin n) (Fin n) ℚ)
    (B : Matrix (Fin n) (Fin p) ℚ) (C : Matrix (Fin m) (Fin n) ℚ)
    (Rv : Matrix (Fin n) (Fin n) ℚ) (Rw : Matrix (Fin m) (Fin m) ℚ)
    (P0 : Matrix (Fin n) (Fin n) ℚ) (xhat0 : Fin n → ℚ)
    (u : ℕ → Fin p → ℚ) (y : ℕ → Fin m → ℚ) (T : ℕ)
    (h : ∀ t, t < T → (innovation A C Rv Rw P0 t).det ≠ 0) :
    kalmanChecked A B C Rv Rw P0 xhat0 u y T
      = Except.ok (kalmanXhat A B C Rv Rw P0 xhat0 u y T, kalmanP A C Rv Rw P0 T) := by
  induction T with
  | zero => rfl
  | succ T ih =>
      have hok := ih fun t ht => h t (Nat.lt_succ_of_lt ht)
      have hT := h T (Nat.lt_succ_self T)
      show (match kalmanChecked A B C Rv Rw P0 xhat0 u y T with
        | Except.error e => Except.error e
        | Except.ok (xh, P) =>
            let Ppred := A * P * Aᵀ + Rv
            let S := C * Ppred * Cᵀ + Rw
            if S.det = 0 then Except.error "singular matrix"
            else
              let L := Ppred * Cᵀ * S⁻¹
              let xpred := A *ᵥ xh + B *ᵥ u T
              Except.ok (xpred + L *ᵥ (y (T + 1) - C *ᵥ xpred), (1 - L * C) * Ppred)) = _
      rw [hok]
      have hT' : (C * (A * kalmanP A C Rv Rw P0 T * Aᵀ + Rv) * Cᵀ + Rw).det ≠ 0 := hT
      show (if (C * (A * kalmanP A C Rv Rw P0 T * Aᵀ + Rv) * Cᵀ + Rw).det = 0
          then Except.error "singular matrix"
          else _) = _
      rw [if_neg hT']
      rfl

theorem kalmanChecked_error {n m p : ℕ} (A : Matrix (Fin n) (Fin n) ℚ)
    (B : Matrix (Fin n) (Fin p) ℚ) (C : Matrix (Fin m) (Fin n) ℚ)
    (Rv : Matrix (Fin n) (Fin n) ℚ) (Rw : Matrix (Fin m) (Fin m) ℚ)
    (P0 : Matrix (Fin n) (Fin n) ℚ) (xhat0 : Fin n → ℚ)
    (u : ℕ → Fin p → ℚ) (y : ℕ → Fin m → ℚ) (T : ℕ)
    (h : ∃ t, t < T ∧ (innovation A C Rv Rw P0 t).det = 0) :
    kalmanChecked A B C Rv Rw P0 xhat0 u y T = Except.error "singular matrix" := by
  induction T with
  | zero => exact absurd h.choose_spec.1 (Nat.not_lt_zero _)
  | succ T ih =>
      by_cases hprev : ∃ t, t < T ∧ (innovation A C Rv Rw P0 t).det = 0
      · have herr := ih hprev
        show (match kalmanChecked A B C Rv Rw P0 xhat0 u y T with
          | Except.error e => Except.error e
          | Except.ok (xh, P) =>
              let Ppred := A * P * Aᵀ + Rv
              let S := C * Ppred * Cᵀ + Rw
              if S.det = 0 then Except.error "singular matrix"
              else
                let L := Ppred * Cᵀ * S⁻¹
                let xpred := A *ᵥ xh + B *ᵥ u T
                Except.ok (xpred + L *ᵥ (y (T + 1) - C *ᵥ xpred), (1 - L * C) * Ppred)) = _
        rw [herr]
      · have hall : ∀ t, t < T → (innovation A C Rv Rw P0 t).det ≠ 0 := by
          intro t ht
          exact fun hdet => hprev ⟨t, ht, hdet⟩
        have hT : (innovation A C Rv Rw P0 T).det = 0 := by
          obtain ⟨t, ht, hdet⟩ := h
          rcases Nat.lt_succ_iff_lt_or_eq.mp ht with hlt | rfl
          · exact absurd hdet (hall t hlt)
          · exact hdet
        have hok := kalmanChecked_ok A B C Rv Rw P0 xhat0 u y T hall
        show (match kalmanChecked A B C Rv Rw P0 xhat0 u y T with
          | Except.error e => Except.error e
          | Except.ok (xh, P) =>
              let Ppred := A * P * Aᵀ + Rv
              let S := C * Ppred * Cᵀ + Rw
              if S.det = 0 then Except.error "singular matrix"
              else
                let L := Ppred * Cᵀ * S⁻¹
                let xpred := A *ᵥ xh + B *ᵥ u T
                Except.ok (xpred + L *ᵥ (y (T + 1) - C *ᵥ xpred), (1 - L * C) * Ppred)) = _
        rw [hok]
        have hT' : (C * (A * kalmanP A C Rv Rw P0 T * Aᵀ + Rv) * Cᵀ + Rw).det = 0 := hT
        show (if (C * (A * kalmanP A C Rv Rw P0 T * Aᵀ + Rv) * Cᵀ + Rw).det = 0
            then Except.error "singular matrix"
            else _) = _
        rw [if_pos hT']

/-- C7: the checked Kalman run aborts with the singular-matrix error exactly
when some innovation covariance along the run is non-invertible; otherwise it
returns the complete output pair `(xhat[T], P[T])` — never a junk value and
never a partial result. -/
theorem C7_singular_abort {n m p : ℕ} (A : Matrix (Fin n) (Fin n) ℚ)
    (B : Matrix (Fin n) (Fin p) ℚ) (C : Matrix (Fin m) (Fin n) ℚ)
    (Rv : Matrix (Fin n) (Fin n) ℚ) (Rw : Matrix (Fin m) (Fin m) ℚ)
    (P0 : Matrix (Fin n) (Fin n) ℚ) (xhat0 : Fin n → ℚ)
    (u : ℕ → Fin p → ℚ) (y : ℕ → Fin m → ℚ) (T : ℕ) :
    (kalmanChecked A B C Rv Rw P0 xhat0 u y T = Except.error "singular matrix"
      ↔ ∃ t, t < T ∧ (innovation A C Rv Rw P0 t).det = 0) ∧
    ((∀ t, t < T → (innovation A C Rv Rw P0 t).det ≠ 0)
      → kalmanChecked A B C Rv Rw P0 xhat0 u y T
          = Except.ok (kalmanXhat A B C Rv Rw P0 xhat0 u y T, kalmanP A C Rv Rw P0 T)) := by
  refine ⟨⟨fun herr => ?_, kalmanChecked_error A B C Rv Rw P0 xhat0 u y T⟩,
    kalmanChecked_ok A B C Rv Rw P0 xhat0 u y T⟩
  by_contra hno
  push_neg at hno
  have hall : ∀ t, t < T → (innovation A C Rv Rw P0 t).det ≠ 0 := hno
  have hok := kalmanChecked_ok A B C Rv Rw P0 xhat0 u y T hall
  rw [hok] at herr
  exact Except.noConfusion herr

/-- Witness for C7 at a concrete run: with `C = 0` and `Rw = 0` the first
innovation covariance is the zero matrix, and the run aborts with the
singular-matrix error. -/
theorem C7_singular_abort_witness :
    kalmanChecked (1 : Matrix (Fin 1) (Fin 1) ℚ) (0 : Matrix (Fin 1) (Fin 1) ℚ)
        (0 : Matrix (Fin 1) (Fin 1) ℚ) 0 0 1 ![0] (fun _ => ![0]) (fun _ => ![0]) 1
      = Except.error "singular matrix" :=
  (C7_singular_abort 1 0 0 0 0 1 ![0] (fun _ => ![0]) (fun _ => ![0]) 1).1.mpr
    ⟨0, Nat.lt_succ_self 0, by simp [innovation]⟩

/-- The Euler integration loop of the ODE notebook (source code):
`x[n+1,:] = x[n,:] + dt * A @ x[n,:]`, starting from a given `x[0,:]`. -/
noncomputable def eulerODE {d : ℕ} (A : Matrix (Fin d) (Fin d) ℝ) (x0 : Fin d → ℝ)
    (dt : ℝ) : ℕ → Fin d → ℝ
  | 0 => x0
  | k + 1 => eulerODE A x0 dt k + dt • (A *ᵥ eulerODE A x0 dt k)

theorem eulerODE_closed_form {d : ℕ} (A : Matrix (Fin d) (Fin d) ℝ) (x0 : Fin d → ℝ)
    (dt : ℝ) (k : ℕ) : eulerODE A x0 dt k = ((1 + dt • A) ^ k) *ᵥ x0 := by
  induction k with
  | zero => simp [eulerODE]
  | succ k ih =>
      show eulerODE A x0 dt k + dt • (A *ᵥ eulerODE A x0 dt k) = _
      rw [ih, pow_succ', ← Matrix.mulVec_mulVec, Matrix.add_mulVec, Matrix.one_mulVec,
        Matrix.smul_mulVec_assoc]

/-- C10: the Euler loop of the ODE notebook is equivalent to the closed form
`x[n] = (I + dt*A)^n x0`, for every matrix `A`, initial vector `x0`, step
size `dt` and step index `n`. -/
theorem C10_euler_closed_form {d : ℕ} (A : Matrix (Fin d) (Fin d) ℝ) (x0 : Fin d → ℝ)
    (dt : ℝ) (k : ℕ) : eulerODE A x0 dt k = ((1 + dt • A) ^ k) *ᵥ x0 :=
  eulerODE_closed_form A x0 dt k

/-- Modelled from the spec: the backward-Riccati update of spec section 4.1
over `ℝ`, indexed by the number `j` of steps taken backward from the terminal
condition `K[T] = 0`, so that `trackK A B dt lam j = K[T - j]`. -/
noncomputable def trackK {n m : ℕ} (A : Matrix (Fin n) (Fin n) ℝ) (B : Matrix (Fin n) (Fin m) ℝ)
    (dt lam : ℝ) : ℕ → Matrix (Fin n) (Fin n) ℝ
  | 0 => 0
  | j + 1 =>
      let K := trackK A B dt lam j
      K + dt • (-1 - Aᵀ * K - K * A + lam⁻¹ • (K * B * Bᵀ * K))

/-- Modelled from the spec: the backward costate update
`s[t] = s[t+1] + dt*(((1/lambda) K[t+1] B Bᵀ - Aᵀ) s[t+1] + r[t+1])` of spec
section 4.1, back-indexed from the terminal condition `s[T] = 0`, so that
`trackS A B r dt lam T j = s[T - j]`. -/
noncomputable def trackS {n m : ℕ} (A : Matrix (Fin n) (Fin n) ℝ) (B : Matrix (Fin n) (Fin m) ℝ)
    (r : ℕ → Fin n → ℝ) (dt lam : ℝ) (T : ℕ) : ℕ → Fin n → ℝ
  | 0 => 0
  | j + 1 =>
      let K := trackK A B dt lam j
      let s := trackS A B r dt lam T j
      s + dt • ((lam⁻¹ • (K * B * Bᵀ) - Aᵀ) *ᵥ s + r (T - j))

/-- Modelled from the spec: the forward pass of spec section 4.1,
`u[t] = -(1/lambda) Bᵀ (K[t] x[t] + s[t])`,
`x[t+1] = x[t] + dt*(A x[t] + B u[t])`, with `K[t]`, `s[t]` read off the
backward passes (`K[t] = trackK (T - t)`, `s[t] = trackS (T - t)`). -/
noncomputable def trackX {n m : ℕ} (A : Matrix (Fin n) (Fin n) ℝ) (B : Matrix (Fin n) (Fin m) ℝ)
    (r : ℕ → Fin n → ℝ) (dt lam : ℝ) (T : ℕ) (x0 : Fin n → ℝ) : ℕ → Fin n → ℝ
  | 0 => x0
  | t + 1 =>
      let x := trackX A B r dt lam T x0 t
      let u := -lam⁻¹ • (Bᵀ *ᵥ (trackK A B dt lam (T - t) *ᵥ x + trackS A B r dt lam T (T - t)))
      x + dt • (A *ᵥ x + B *ᵥ u)

/-- The control output of the forward pass at time `t`. -/
noncomputable def trackU {n m : ℕ} (A : Matrix (Fin n) (Fin n) ℝ) (B : Matrix (Fin n) (Fin m) ℝ)
    (r : ℕ → Fin n → ℝ) (dt lam : ℝ) (T : ℕ) (x0 : Fin n → ℝ) (t : ℕ) : Fin m → ℝ :=
  -lam⁻¹ • (Bᵀ *ᵥ (trackK A B dt lam (T - t) *ᵥ trackX A B r dt lam T x0 t
    + trackS A B r dt lam T (T - t)))

/-- The dynamics matrix `A` of the tracking notebook. -/
def ctrlA : Matrix (Fin 2) (Fin 2) ℝ := Matrix.of ![![0, 1], ![0, 0]]

/-- The input matrix `B` of the tracking notebook (a 2 by 1 column). -/
def ctrlB : Matrix (Fin 2) (Fin 1) ℝ := Matrix.of ![![0], ![1]]

/-- The target trajectory of the tracking notebook:
`r[k,0] = 0.5*(1 + cos(2 pi t_k / (2 T)))`,
`r[k,1] = -0.5*pi/T * sin(2 pi t_k / (2 T))` with `T = 5` and
`t_k = 5*k/499` (the notebook's `linspace(0, 5, 500)`). -/
noncomputable def ctrlR (k : ℕ) : Fin 2 → ℝ :=
  ![1 / 2 * (1 + Real.cos (2 * Real.pi * (5 * k / 499) / (2 * 5))),
    -(1 / 2) * Real.pi / 5 * Real.sin (2 * Real.pi * (5 * k / 499) / (2 * 5))]

/-- The notebook's solver function `control(lam)`: its only parameter is the
cost weight `lambda`; the matrices, the target trajectory, `dt = 0.01` and the
horizon (arrays of length `n_t = 500`, terminal index `T = 499`) are
module-level constants, and the function sets the initial state internally to
`x[0] = (1, 0)`.  It returns the pair `(u, x)`.  The two loop bodies are
modelled from the spec (they are blank exercises in the notebook). -/
noncomputable def control (lam : ℝ) : (ℕ → Fin 1 → ℝ) × (ℕ → Fin 2 → ℝ) :=
  (fun t => trackU ctrlA ctrlB ctrlR (1 / 100) lam 499 ![1, 0] t,
   fun t => trackX ctrlA ctrlB ctrlR (1 / 100) lam 499 ![1, 0] t)

/-- C9 as stated is false: the notebook's solver does not take the initial
state as an input of the call.  `control` has the single parameter `lambda`
and always starts its returned trajectory at the hard-coded `x[0] = (1, 0)`,
so no call can produce a trajectory starting at `(0, 0)`. -/
theorem C9_counterexample :
    ¬ (∀ x0 : Fin 2 → ℝ, ∃ lam : ℝ, (control lam).2 0 = x0) := by
  intro h
  obtain ⟨lam, hlam⟩ := h ![0, 0]
  have hstart : (control lam).2 0 = ![1, 0] := rfl
  rw [hstart] at hlam
  have := congrFun hlam 0
  norm_num at this

/-- C9 (amended): the solver's only input is `lambda`; for every `lambda` the
returned state trajectory starts at the internally fixed `x[0] = (1, 0)` and
satisfies the forward recursion `x[t+1] = x[t] + dt*(A x[t] + B u[t])` with
the returned control sequence, for every `t`. -/
theorem C9_control_forward (lam : ℝ) :
    (control lam).2 0 = ![1, 0] ∧
      ∀ t, (control lam).2 (t + 1)
        = (control lam).2 t
          + (1 / 100 : ℝ) • (ctrlA *ᵥ (control lam).2 t + ctrlB *ᵥ (control lam).1 t) := by
  exact ⟨rfl, fun t => rfl⟩

set_option maxHeartbeats 1000000 in
theorem tendsto_mul_mat {X : Type} {l : Filter X} {a b c : ℕ}
    {f : X → Matrix (Fin a) (Fin b) ℝ} {g : X → Matrix (Fin b) (Fin c) ℝ}
    {M : Matrix (Fin a) (Fin b) ℝ} {N : Matrix (Fin b) (Fin c) ℝ}
    (hf : Filter.Tendsto f l (nhds M)) (hg : Filter.Tendsto g l (nhds N)) :
    Filter.Tendsto (fun x => f x * g x) l (nhds (M * N)) := by
  have hcont : Continuous fun p : Matrix (Fin a) (Fin b) ℝ × Matrix (Fin b) (Fin c) ℝ =>
      p.1 * p.2 :=
    Continuous.matrix_mul continuous_fst continuous_snd
  exact (hcont.tendsto (M, N)).comp (hf.prod_mk_nhds hg)

set_option maxHeartbeats 1000000 in
theorem tendsto_mulVec_mat {X : Type} {l : Filter X} {a b : ℕ}
    {f : X → Matrix (Fin a) (Fin b) ℝ} {g : X → Fin b → ℝ}
    {M : Matrix (Fin a) (Fin b) ℝ} {v : Fin b → ℝ}
    (hf : Filter.Tendsto f l (nhds M)) (hg : Filter.Tendsto g l (nhds v)) :
    Filter.Tendsto (fun x => f x *ᵥ g x) l (nhds (M *ᵥ v)) := by
  have hcont : Continuous fun p : Matrix (Fin a) (Fin b) ℝ × (Fin b → ℝ) => p.1 *ᵥ p.2 :=
    Continuous.matrix_mulVec continuous_fst continuous_snd
  exact (hcont.tendsto (M, v)).comp (hf.prod_mk_nhds hg)

/-- As `lambda → ∞` the backward-Riccati iterates converge to the recursion
with the `1/lambda` feedback term dropped (which, since `(0 : ℝ)⁻¹ = 0` in
the embedding, is the recursion evaluated at `lambda = 0`). -/
theorem trackK_tendsto {n m : ℕ} (A : Matrix (Fin n) (Fin n) ℝ) (B : Matrix (Fin n) (Fin m) ℝ)
    (dt : ℝ) (j : ℕ) :
    Filter.Tendsto (fun lam : ℝ => trackK A B dt lam j) Filter.atTop
      (nhds (trackK A B dt 0 j)) := by
  induction j with
  | zero => exact tendsto_const_nhds
  | succ j ih =>
      have hinv : Filter.Tendsto (fun lam : ℝ => lam⁻¹) Filter.atTop (nhds 0) :=
        tendsto_inv_atTop_zero
      have hterm : Filter.Tendsto
          (fun lam : ℝ => trackK A B dt lam j
            + dt • (-1 - Aᵀ * trackK A B dt lam j - trackK A B dt lam j * A
              + lam⁻¹ • (trackK A B dt lam j * B * Bᵀ * trackK A B dt lam j)))
          Filter.atTop
          (nhds (trackK A B dt 0 j
            + dt • (-1 - Aᵀ * trackK A B dt 0 j - trackK A B dt 0 j * A
              + (0 : ℝ) • (trackK A B dt 0 j * B * Bᵀ * trackK A B dt 0 j)))) :=
        ih.add
          ((((tendsto_const_nhds.sub (tendsto_mul_mat tendsto_const_nhds ih)).sub
              (tendsto_mul_mat ih tendsto_const_nhds)).add
            (hinv.smul
              (tendsto_mul_mat
                (tendsto_mul_mat (tendsto_mul_mat ih tendsto_const_nhds) tendsto_const_nhds)
                ih))).const_smul dt)
      have hval : trackK A B dt 0 (j + 1)
          = trackK A B dt 0 j
            + dt • (-1 - Aᵀ * trackK A B dt 0 j - trackK A B dt 0 j * A
              + (0 : ℝ) • (trackK A B dt 0 j * B * Bᵀ * trackK A B dt 0 j)) := by
        show trackK A B dt 0 j
            + dt • (-1 - Aᵀ * trackK A B dt 0 j - trackK A B dt 0 j * A
              + (0 : ℝ)⁻¹ • (trackK A B dt 0 j * B * Bᵀ * trackK A B dt 0 j)) = _
        have h0 : (0 : ℝ)⁻¹ = 0 := by norm_num
        rw [h0]
      rw [hval]
      exact hterm

/-- As `lambda → ∞` the backward costate iterates converge to the recursion
with the `1/lambda` term dropped. -/
theorem trackS_tendsto {n m : ℕ} (A : Matrix (Fin n) (Fin n) ℝ) (B : Matrix (Fin n) (Fin m) ℝ)
    (r : ℕ → Fin n → ℝ) (dt : ℝ) (T : ℕ) (j : ℕ) :
    Filter.Tendsto (fun lam : ℝ => trackS A B r dt lam T j) Filter.atTop
      (nhds (trackS A B r dt 0 T j)) := by
  induction j with
  | zero => exact tendsto_const_nhds
  | succ j ih =>
      have hinv : Filter.Tendsto (fun lam : ℝ => lam⁻¹) Filter.atTop (nhds 0) :=
        tendsto_inv_atTop_zero
      have hterm : Filter.Tendsto
          (fun lam : ℝ => trackS A B r dt lam T j
            + dt • ((lam⁻¹ • (trackK A B dt lam j * B * Bᵀ) - Aᵀ) *ᵥ trackS A B r dt lam T j
              + r (T - j)))
          Filter.atTop
          (nhds (trackS A B r dt 0 T j
            + dt • (((0 : ℝ) • (trackK A B dt 0 j * B * Bᵀ) - Aᵀ) *ᵥ trackS A B r dt 0 T j
              + r (T - j)))) :=
        ih.add
          (((tendsto_mulVec_mat
              ((hinv.smul
                  (tendsto_mul_mat (tendsto_mul_mat (trackK_tendsto A B dt j) tendsto_const_nhds)
                    tendsto_const_nhds)).sub
                tendsto_const_nhds)
              ih).add
            tendsto_const_nhds).const_smul dt)
      have hval : trackS A B r dt 0 T (j + 1)
          = trackS A B r dt 0 T j
            + dt • (((0 : ℝ) • (trackK A B dt 0 j * B * Bᵀ) - Aᵀ) *ᵥ trackS A B r dt 0 T j
              + r (T - j)) := by
        show trackS A B r dt 0 T j
            + dt • (((0 : ℝ)⁻¹ • (trackK A B dt 0 j * B * Bᵀ) - Aᵀ) *ᵥ trackS A B r dt 0 T j
              + r (T - j)) = _
        have h0 : (0 : ℝ)⁻¹ = 0 := by norm_num
        rw [h0]
      rw [hval]
      exact hterm

/-- As `lambda → ∞` the forward state trajectory converges to the recursion
with the `1/lambda` control term dropped. -/
theorem trackX_tendsto {n m : ℕ} (A : Matrix (Fin n) (Fin n) ℝ) (B : Matrix (Fin n) (Fin m) ℝ)
    (r : ℕ → Fin n → ℝ) (dt : ℝ) (T : ℕ) (x0 : Fin n → ℝ) (t : ℕ) :
    Filter.Tendsto (fun lam : ℝ => trackX A B r dt lam T x0 t) Filter.atTop
      (nhds (trackX A B r dt 0 T x0 t)) := by
  induction t with
  | zero => exact tendsto_const_nhds
  | succ t ih =>
      have hinv : Filter.Tendsto (fun lam : ℝ => lam⁻¹) Filter.atTop (nhds 0) :=
        tendsto_inv_atTop_zero
      have hterm : Filter.Tendsto
          (fun lam : ℝ => trackX A B r dt lam T x0 t
            + dt • (A *ᵥ trackX A B r dt lam T x0 t
              + B *ᵥ (-lam⁻¹ • (Bᵀ *ᵥ (trackK A B dt lam (T - t) *ᵥ trackX A B r dt lam T x0 t
                + trackS A B r dt lam T (T - t))))))
          Filter.atTop
          (nhds (trackX A B r dt 0 T x0 t
            + dt • (A *ᵥ trackX A B r dt 0 T x0 t
              + B *ᵥ (-(0 : ℝ) • (Bᵀ *ᵥ (trackK A B dt 0 (T - t) *ᵥ trackX A B r dt 0 T x0 t
                + trackS A B r dt 0 T (T - t))))))) :=
        ih.add
          (((tendsto_mulVec_mat tendsto_const_nhds ih).add
            (tendsto_mulVec_mat tendsto_const_nhds
              (hinv.neg.smul
                (tendsto_mulVec_mat tendsto_const_nhds
                  ((tendsto_mulVec_mat (trackK_tendsto A B dt (T - t)) ih).add
                    (trackS_tendsto A B r dt T (T - t))))))).const_smul dt)
      have hval : trackX A B r dt 0 T x0 (t + 1)
          = trackX A B r dt 0 T x0 t
            + dt • (A *ᵥ trackX A B r dt 0 T x0 t
              + B *ᵥ (-(0 : ℝ) • (Bᵀ *ᵥ (trackK A B dt 0 (T - t) *ᵥ trackX A B r dt 0 T x0 t
                + trackS A B r dt 0 T (T - t))))) := by
        show trackX A B r dt 0 T x0 t
            + dt • (A *ᵥ trackX A B r dt 0 T x0 t
              + B *ᵥ (-(0 : ℝ)⁻¹ • (Bᵀ *ᵥ (trackK A B dt 0 (T - t) *ᵥ trackX A B r dt 0 T x0 t
                + trackS A B r dt 0 T (T - t))))) = _
        have h0 : (0 : ℝ)⁻¹ = 0 := by norm_num
        rw [h0]
      rw [hval]
      exact hterm

/-- C3: with `A`, `B`, `r`, `x0`, `dt` and the horizon held fixed, the control
`u[t] = -(1/lambda) Bᵀ (K[t] x[t] + s[t])` produced by the backward and
forward passes tends to the zero vector as `lambda → ∞`, for every timestep
`t`. -/
theorem C3_control_vanishes {n m : ℕ} (A : Matrix (Fin n) (Fin n) ℝ)
    (B : Matrix (Fin n) (Fin m) ℝ) (r : ℕ → Fin n → ℝ) (dt : ℝ) (T : ℕ) (x0 : Fin n → ℝ)
    (t : ℕ) :
    Filter.Tendsto (fun lam : ℝ => trackU A B r dt lam T x0 t) Filter.atTop (nhds 0) := by
  have hW : Filter.Tendsto
      (fun lam : ℝ => Bᵀ *ᵥ (trackK A B dt lam (T - t) *ᵥ trackX A B r dt lam T x0 t
        + trackS A B r dt lam T (T - t)))
      Filter.atTop
      (nhds (Bᵀ *ᵥ (trackK A B dt 0 (T - t) *ᵥ trackX A B r dt 0 T x0 t
        + trackS A B r dt 0 T (T - t)))) :=
    tendsto_mulVec_mat tendsto_const_nhds
      ((tendsto_mulVec_mat (trackK_tendsto A B dt (T - t)) (trackX_tendsto A B r dt T x0 t)).add
        (trackS_tendsto A B r dt T (T - t)))
  have h := (tendsto_inv_atTop_zero.neg).smul hW
  have hzero : (-(0 : ℝ)) • (Bᵀ *ᵥ (trackK A B dt 0 (T - t) *ᵥ trackX A B r dt 0 T x0 t
      + trackS A B r dt 0 T (T - t))) = (0 : Fin m → ℝ) := by
    simp
  rw [hzero] at h
  exact h

theorem pow_mulVec_eigen {d : ℕ} (M : Matrix (Fin d) (Fin d) ℝ) (v : Fin d → ℝ) (μ : ℝ)
    (hv : M *ᵥ v = μ • v) (k : ℕ) : (M ^ k) *ᵥ v = μ ^ k • v := by
  induction k with
  | zero => simp
  | succ k ih =>
      rw [pow_succ', ← Matrix.mulVec_mulVec, ih, Matrix.mulVec_smul, hv, smul_smul, ← pow_succ]

section MatrixExp

attribute [local instance] Matrix.linftyOpNormedAddCommGroup Matrix.linftyOpNormedRing
  Matrix.linftyOpNormedAlgebra

/-- Applying the matrix exponential to an eigenvector multiplies it by the
scalar exponential of the eigenvalue. -/
theorem exp_mulVec_eigen {d : ℕ} (M : Matrix (Fin d) (Fin d) ℝ) (v : Fin d → ℝ) (μ : ℝ)
    (hv : M *ᵥ v = μ • v) :
    NormedSpace.exp ℝ M *ᵥ v = Real.exp μ • v := by
  let L : Matrix (Fin d) (Fin d) ℝ →ₗ[ℝ] (Fin d → ℝ) :=
    { toFun := fun N => N *ᵥ v
      map_add' := fun N₁ N₂ => Matrix.add_mulVec N₁ N₂ v
      map_smul' := fun c N => Matrix.smul_mulVec_assoc c N v }
  have hL : Continuous L := L.continuous_of_finiteDimensional
  have hsum : Summable fun k : ℕ => ((k.factorial : ℝ)⁻¹ • M ^ k) :=
    NormedSpace.expSeries_summable' M
  have hmap : L (NormedSpace.exp ℝ M)
      = tsum (fun k : ℕ => L ((k.factorial : ℝ)⁻¹ • M ^ k)) := by
    rw [NormedSpace.exp_eq_tsum]
    exact (hsum.hasSum.map L hL).tsum_eq.symm
  have happ : ∀ k : ℕ, L ((k.factorial : ℝ)⁻¹ • M ^ k) = (μ ^ k / (k.factorial : ℝ)) • v := by
    intro k
    show ((k.factorial : ℝ)⁻¹ • M ^ k) *ᵥ v = _
    rw [Matrix.smul_mulVec_assoc, pow_mulVec_eigen M v μ hv k, smul_smul, div_eq_mul_inv,
      mul_comm]
  have hfinal : L (NormedSpace.exp ℝ M)
      = (tsum fun k : ℕ => μ ^ k / (k.factorial : ℝ)) • v := by
    rw [hmap]
    rw [tsum_congr happ]
    exact tsum_smul_const (Real.summable_pow_div_factorial μ) v
  have hexp : (tsum fun k : ℕ => μ ^ k / (k.factorial : ℝ)) = Real.exp μ := by
    rw [Real.exp_eq_exp_ℝ, NormedSpace.exp_eq_tsum_div]
  show L (NormedSpace.exp ℝ M) = _
  rw [hfinal, hexp]

end MatrixExp

/-- One-dimensional Euler versus exponential: for `0 ≤ c ≤ 1` the distance
between the Euler factor `(1 - c)^k` and `exp (-(c k))` is at most
`(3/4) c exp (c - 1)`, uniformly in the step count `k`. -/
theorem euler_exp_scalar_bound (c : ℝ) (hc0 : 0 ≤ c) (hc1 : c ≤ 1) (k : ℕ) :
    |(1 - c) ^ k - Real.exp (-(c * k))| ≤ 3 / 4 * c * Real.exp (c - 1) := by
  have hx0 : (0 : ℝ) ≤ Real.exp (-c) := (Real.exp_pos _).le
  have hy0 : (0 : ℝ) ≤ 1 - c := by linarith
  have hyx : 1 - c ≤ Real.exp (-c) := by
    have := Real.add_one_le_exp (-c)
    linarith
  have hgap : Real.exp (-c) - (1 - c) ≤ 3 / 4 * c ^ 2 := by
    have habs : |(-c : ℝ)| ≤ 1 := by rw [abs_neg, abs_of_nonneg hc0]; exact hc1
    have hb := Real.exp_bound habs (n := 2) (by norm_num)
    have hsum : ∑ m ∈ Finset.range 2, (-c) ^ m / (m.factorial : ℝ) = 1 - c := by
      rw [Finset.sum_range_succ, Finset.sum_range_one]
      norm_num
      ring
    rw [hsum] at hb
    have hble : |Real.exp (-c) - (1 - c)| ≤ 3 / 4 * c ^ 2 := by
      refine hb.trans (le_of_eq ?_)
      rw [abs_neg, abs_of_nonneg hc0]
      norm_num [Nat.factorial]
      ring
    calc Real.exp (-c) - (1 - c) ≤ |Real.exp (-c) - (1 - c)| := le_abs_self _
    _ ≤ 3 / 4 * c ^ 2 := hble
  cases k with
  | zero => simpa using mul_nonneg (mul_nonneg (by norm_num) hc0) (Real.exp_pos _).le
  | succ j =>
      have hxk : Real.exp (-(c * ((j + 1 : ℕ) : ℝ))) = Real.exp (-c) ^ (j + 1) := by
        rw [← Real.exp_nat_mul]
        congr 1
        push_cast
        ring
      have hge : (1 - c) ^ (j + 1) ≤ Real.exp (-c) ^ (j + 1) := pow_le_pow_left hy0 hyx _
      have hsum_le : ∑ i ∈ Finset.range (j + 1), Real.exp (-c) ^ i * (1 - c) ^ (j + 1 - 1 - i)
          ≤ ((j + 1 : ℕ) : ℝ) * Real.exp (-c) ^ j := by
        have hterm : ∀ i ∈ Finset.range (j + 1),
            Real.exp (-c) ^ i * (1 - c) ^ (j + 1 - 1 - i) ≤ Real.exp (-c) ^ j := by
          intro i hi
          have hij : i ≤ j := Nat.lt_succ_iff.mp (Finset.mem_range.mp hi)
          have h1 : (1 - c) ^ (j + 1 - 1 - i) ≤ Real.exp (-c) ^ (j - i) := by
            have : j + 1 - 1 - i = j - i := by omega
            rw [this]
            exact pow_le_pow_left hy0 hyx _
          calc Real.exp (-c) ^ i * (1 - c) ^ (j + 1 - 1 - i)
              ≤ Real.exp (-c) ^ i * Real.exp (-c) ^ (j - i) :=
                mul_le_mul_of_nonneg_left h1 (pow_nonneg hx0 i)
          _ = Real.exp (-c) ^ j := by
                rw [← pow_add]
                congr 1
                omega
        calc ∑ i ∈ Finset.range (j + 1), Real.exp (-c) ^ i * (1 - c) ^ (j + 1 - 1 - i)
            ≤ ∑ _i ∈ Finset.range (j + 1), Real.exp (-c) ^ j := Finset.sum_le_sum hterm
        _ = ((j + 1 : ℕ) : ℝ) * Real.exp (-c) ^ j := by
              rw [Finset.sum_const, Finset.card_range, nsmul_eq_mul]
      have hdiff : Real.exp (-c) ^ (j + 1) - (1 - c) ^ (j + 1)
          ≤ (((j + 1 : ℕ) : ℝ) * Real.exp (-c) ^ j) * (Real.exp (-c) - (1 - c)) := by
        rw [← geom_sum₂_mul (Real.exp (-c)) (1 - c) (j + 1)]
        exact mul_le_mul_of_nonneg_right hsum_le (by linarith)
      have hstep : c * ((j + 1 : ℕ) : ℝ) * Real.exp (-c) ^ j ≤ Real.exp (c - 1) := by
        have e1 : Real.exp (-c) ^ j = Real.exp (-(c * j)) := by
          rw [← Real.exp_nat_mul]
          congr 1
          ring
        have e2 : c * ((j + 1 : ℕ) : ℝ) ≤ Real.exp (c * ((j + 1 : ℕ) : ℝ) - 1) := by
          have := Real.add_one_le_exp (c * ((j + 1 : ℕ) : ℝ) - 1)
          linarith
        calc c * ((j + 1 : ℕ) : ℝ) * Real.exp (-c) ^ j
            = c * ((j + 1 : ℕ) : ℝ) * Real.exp (-(c * j)) := by rw [e1]
        _ ≤ Real.exp (c * ((j + 1 : ℕ) : ℝ) - 1) * Real.exp (-(c * j)) :=
              mul_le_mul_of_nonneg_right e2 (Real.exp_pos _).le
        _ = Real.exp (c - 1) := by
              rw [← Real.exp_add]
              congr 1
              push_cast
              ring
      rw [hxk, abs_sub_comm, abs_of_nonneg (by linarith)]
      have hnn : (0 : ℝ) ≤ ((j + 1 : ℕ) : ℝ) * Real.exp (-c) ^ j :=
        mul_nonneg (by positivity) (pow_nonneg hx0 j)
      nlinarith [mul_le_mul_of_nonneg_left hgap hnn, hstep, hdiff,
        mul_nonneg hnn (mul_nonneg hc0 hc0)]

/-- For `0 ≤ c ≤ 1/25`, `exp (c - 1) ≤ 39/100`. -/
theorem exp_factor_le (c : ℝ) (h0 : 0 ≤ c) (h1 : c ≤ 1 / 25) : Real.exp (c - 1) ≤ 39 / 100 := by
  have hne : Real.exp (c - 1) * Real.exp 1 = Real.exp c := by
    rw [← Real.exp_add]
    ring_nf
  have h2 : (1 - c) * Real.exp c ≤ 1 := by
    have h3 := Real.add_one_le_exp (-c)
    have h4 : Real.exp (-c) * Real.exp c = 1 := by
      rw [← Real.exp_add]
      simp
    nlinarith [Real.exp_pos c]
  have hEc : Real.exp c ≤ 25 / 24 := by nlinarith [Real.exp_pos c]
  have h6 : Real.exp (c - 1) * 2.7182818283 ≤ Real.exp (c - 1) * Real.exp 1 :=
    mul_le_mul_of_nonneg_left Real.exp_one_gt_d9.le (Real.exp_pos _).le
  rw [hne] at h6
  nlinarith

section OdeScenario

attribute [local instance] Matrix.linftyOpNormedAddCommGroup Matrix.linftyOpNormedRing
  Matrix.linftyOpNormedAlgebra

/-- The dynamics matrix of the ODE notebook: `A = [[-1, 1], [2, -3]]`. -/
noncomputable def odeA : Matrix (Fin 2) (Fin 2) ℝ := Matrix.of ![![-1, 1], ![2, -3]]

/-- The initial state of the ODE notebook: `x[0,:] = [1, 0]`. -/
noncomputable def odeX0 : Fin 2 → ℝ := ![1, 0]

/-- The analytic solution `x(t) = exp(A t) x0` of the ODE notebook. -/
noncomputable def odeExact (t : ℝ) : Fin 2 → ℝ := NormedSpace.exp ℝ (t • odeA) *ᵥ odeX0

/-- Eigenvector of `odeA` for the slow eigenvalue `√3 - 2`. -/
noncomputable def odeV1 : Fin 2 → ℝ := ![1, Real.sqrt 3 - 1]

/-- Eigenvector of `odeA` for the fast eigenvalue `-2 - √3`. -/
noncomputable def odeV2 : Fin 2 → ℝ := ![1, -1 - Real.sqrt 3]

theorem sqrt3_sq : Real.sqrt 3 ^ 2 = 3 := Real.sq_sqrt (by norm_num)

theorem sqrt3_gt : 1.7320 < Real.sqrt 3 := by
  nlinarith [sqrt3_sq, Real.sqrt_nonneg 3]

theorem sqrt3_lt : Real.sqrt 3 < 1.7321 := by
  nlinarith [sqrt3_sq, Real.sqrt_nonneg 3]

theorem odeA_v1 : odeA *ᵥ odeV1 = (Real.sqrt 3 - 2) • odeV1 := by
  funext i
  fin_cases i
  · show (-1) * 1 + (1 * (Real.sqrt 3 - 1) + 0) = (Real.sqrt 3 - 2) * 1
    ring
  · show 2 * 1 + ((-3) * (Real.sqrt 3 - 1) + 0) = (Real.sqrt 3 - 2) * (Real.sqrt 3 - 1)
    linear_combination -sqrt3_sq

theorem odeA_v2 : odeA *ᵥ odeV2 = (-2 - Real.sqrt 3) • odeV2 := by
  funext i
  fin_cases i
  · show (-1) * 1 + (1 * (-1 - Real.sqrt 3) + 0) = (-2 - Real.sqrt 3) * 1
    ring
  · show 2 * 1 + ((-3) * (-1 - Real.sqrt 3) + 0) = (-2 - Real.sqrt 3) * (-1 - Real.sqrt 3)
    linear_combination -sqrt3_sq

theorem odeX0_eq :
    odeX0 = ((3 + Real.sqrt 3) / 6) • odeV1 + ((3 - Real.sqrt 3) / 6) • odeV2 := by
  funext i
  fin_cases i
  · show (1 : ℝ) = (3 + Real.sqrt 3) / 6 * 1 + (3 - Real.sqrt 3) / 6 * 1
    ring
  · show (0 : ℝ) = (3 + Real.sqrt 3) / 6 * (Real.sqrt 3 - 1)
        + (3 - Real.sqrt 3) / 6 * (-1 - Real.sqrt 3)
    linear_combination (-1 / 3 : ℝ) * sqrt3_sq

/-- Closed form of the analytic solution via the eigendecomposition. -/
theorem odeExact_eq (t : ℝ) :
    odeExact t
      = ((3 + Real.sqrt 3) / 6 * Real.exp ((Real.sqrt 3 - 2) * t)) • odeV1
        + ((3 - Real.sqrt 3) / 6 * Real.exp ((-2 - Real.sqrt 3) * t)) • odeV2 := by
  have h1 : (t • odeA) *ᵥ odeV1 = ((Real.sqrt 3 - 2) * t) • odeV1 := by
    rw [Matrix.smul_mulVec_assoc, odeA_v1, smul_smul, mul_comm]
  have h2 : (t • odeA) *ᵥ odeV2 = ((-2 - Real.sqrt 3) * t) • odeV2 := by
    rw [Matrix.smul_mulVec_assoc, odeA_v2, smul_smul, mul_comm]
  show NormedSpace.exp ℝ (t • odeA) *ᵥ odeX0 = _
  rw [odeX0_eq, Matrix.mulVec_add, Matrix.mulVec_smul, Matrix.mulVec_smul,
    exp_mulVec_eigen _ _ _ h1, exp_mulVec_eigen _ _ _ h2, smul_smul, smul_smul]

/-- Closed form of the Euler iterates via the eigendecomposition. -/
theorem odeEuler_eq (h : ℝ) (n : ℕ) :
    eulerODE odeA odeX0 h n
      = ((3 + Real.sqrt 3) / 6 * (1 + h * (Real.sqrt 3 - 2)) ^ n) • odeV1
        + ((3 - Real.sqrt 3) / 6 * (1 + h * (-2 - Real.sqrt 3)) ^ n) • odeV2 := by
  have h1 : (1 + h • odeA) *ᵥ odeV1 = (1 + h * (Real.sqrt 3 - 2)) • odeV1 := by
    rw [Matrix.add_mulVec, Matrix.one_mulVec, Matrix.smul_mulVec_assoc, odeA_v1, smul_smul,
      add_smul, one_smul]
  have h2 : (1 + h • odeA) *ᵥ odeV2 = (1 + h * (-2 - Real.sqrt 3)) • odeV2 := by
    rw [Matrix.add_mulVec, Matrix.one_mulVec, Matrix.smul_mulVec_assoc, odeA_v2, smul_smul,
      add_smul, one_smul]
  rw [eulerODE_closed_form, odeX0_eq, Matrix.mulVec_add, Matrix.mulVec_smul, Matrix.mulVec_smul,
    pow_mulVec_eigen _ _ _ h1 n, pow_mulVec_eigen _ _ _ h2 n, smul_smul, smul_smul]

set_option maxHeartbeats 1600000 in
/-- The linear-in-`dt` componentwise error bound for the ODE notebook's Euler
loop against the analytic solution, uniform in the step index. -/
theorem odeEuler_error_bound (dt : ℝ) (hdt0 : 0 < dt) (hdt1 : dt ≤ 1 / 100) (n : ℕ)
    (i : Fin 2) :
    |eulerODE odeA odeX0 dt n i - odeExact ((n : ℝ) * dt) i| ≤ 7 / 10 * dt := by
  have hs2 := sqrt3_sq
  have hsl := sqrt3_gt
  have hsu := sqrt3_lt
  have hsnn := Real.sqrt_nonneg 3
  have hc1_0 : 0 ≤ dt * (2 - Real.sqrt 3) := by nlinarith
  have hc1_25 : dt * (2 - Real.sqrt 3) ≤ 1 / 25 := by nlinarith
  have hc2_0 : 0 ≤ dt * (2 + Real.sqrt 3) := by nlinarith
  have hc2_25 : dt * (2 + Real.sqrt 3) ≤ 1 / 25 := by nlinarith
  have hb1 : |(1 - dt * (2 - Real.sqrt 3)) ^ n
        - Real.exp (-(dt * (2 - Real.sqrt 3) * n))| ≤ 117 / 400 * (dt * (2 - Real.sqrt 3)) := by
    have hd := euler_exp_scalar_bound (dt * (2 - Real.sqrt 3)) hc1_0 (by linarith) n
    have hf := exp_factor_le (dt * (2 - Real.sqrt 3)) hc1_0 hc1_25
    have hmul := mul_le_mul_of_nonneg_left hf
      (show (0 : ℝ) ≤ 3 / 4 * (dt * (2 - Real.sqrt 3)) by nlinarith)
    calc |(1 - dt * (2 - Real.sqrt 3)) ^ n - Real.exp (-(dt * (2 - Real.sqrt 3) * n))|
        ≤ 3 / 4 * (dt * (2 - Real.sqrt 3)) * Real.exp (dt * (2 - Real.sqrt 3) - 1) := hd
    _ ≤ 3 / 4 * (dt * (2 - Real.sqrt 3)) * (39 / 100) := hmul
    _ = 117 / 400 * (dt * (2 - Real.sqrt 3)) := by ring
  have hb2 : |(1 - dt * (2 + Real.sqrt 3)) ^ n
        - Real.exp (-(dt * (2 + Real.sqrt 3) * n))| ≤ 117 / 400 * (dt * (2 + Real.sqrt 3)) := by
    have hd := euler_exp_scalar_bound (dt * (2 + Real.sqrt 3)) hc2_0 (by linarith) n
    have hf := exp_factor_le (dt * (2 + Real.sqrt 3)) hc2_0 hc2_25
    have hmul := mul_le_mul_of_nonneg_left hf
      (show (0 : ℝ) ≤ 3 / 4 * (dt * (2 + Real.sqrt 3)) by nlinarith)
    calc |(1 - dt * (2 + Real.sqrt 3)) ^ n - Real.exp (-(dt * (2 + Real.sqrt 3) * n))|
        ≤ 3 / 4 * (dt * (2 + Real.sqrt 3)) * Real.exp (dt * (2 + Real.sqrt 3) - 1) := hd
    _ ≤ 3 / 4 * (dt * (2 + Real.sqrt 3)) * (39 / 100) := hmul
    _ = 117 / 400 * (dt * (2 + Real.sqrt 3)) := by ring
  have he1 : 1 + dt * (Real.sqrt 3 - 2) = 1 - dt * (2 - Real.sqrt 3) := by ring
  have he2 : 1 + dt * (-2 - Real.sqrt 3) = 1 - dt * (2 + Real.sqrt 3) := by ring
  have hg1 : (Real.sqrt 3 - 2) * ((n : ℝ) * dt) = -(dt * (2 - Real.sqrt 3) * n) := by ring
  have hg2 : (-2 - Real.sqrt 3) * ((n : ℝ) * dt) = -(dt * (2 + Real.sqrt 3) * n) := by ring
  have hcomp : eulerODE odeA odeX0 dt n i - odeExact ((n : ℝ) * dt) i
      = (3 + Real.sqrt 3) / 6
          * ((1 - dt * (2 - Real.sqrt 3)) ^ n - Real.exp (-(dt * (2 - Real.sqrt 3) * n)))
          * odeV1 i
        + (3 - Real.sqrt 3) / 6
          * ((1 - dt * (2 + Real.sqrt 3)) ^ n - Real.exp (-(dt * (2 + Real.sqrt 3) * n)))
          * odeV2 i := by
    rw [odeEuler_eq, odeExact_eq, he1, he2, hg1, hg2]
    simp only [Pi.add_apply, Pi.smul_apply, smul_eq_mul]
    ring
  set D1 : ℝ := (1 - dt * (2 - Real.sqrt 3)) ^ n - Real.exp (-(dt * (2 - Real.sqrt 3) * n))
    with hD1def
  set D2 : ℝ := (1 - dt * (2 + Real.sqrt 3)) ^ n - Real.exp (-(dt * (2 + Real.sqrt 3) * n))
    with hD2def
  have ha : (0 : ℝ) ≤ (3 + Real.sqrt 3) / 6 := by nlinarith
  have hbnn : (0 : ℝ) ≤ (3 - Real.sqrt 3) / 6 := by nlinarith
  fin_cases i
  · have hv1 : odeV1 0 = 1 := rfl
    have hv2 : odeV2 0 = 1 := rfl
    simp only [Fin.zero_eta] at hcomp ⊢
    rw [hcomp, hv1, hv2, mul_one, mul_one]
    have htri := abs_add ((3 + Real.sqrt 3) / 6 * D1) ((3 - Real.sqrt 3) / 6 * D2)
    rw [abs_mul, abs_mul, abs_of_nonneg ha, abs_of_nonneg hbnn] at htri
    have hm1 := mul_le_mul_of_nonneg_left hb1 ha
    have hm2 := mul_le_mul_of_nonneg_left hb2 hbnn
    have hid0 : (3 + Real.sqrt 3) / 6 * (117 / 400 * (dt * (2 - Real.sqrt 3)))
        + (3 - Real.sqrt 3) / 6 * (117 / 400 * (dt * (2 + Real.sqrt 3))) = 117 / 400 * dt := by
      linear_combination (-117 / 1200 * dt) * hs2
    have hfin : 117 / 400 * dt ≤ 7 / 10 * dt := by linarith
    calc |(3 + Real.sqrt 3) / 6 * D1 + (3 - Real.sqrt 3) / 6 * D2|
        ≤ (3 + Real.sqrt 3) / 6 * |D1| + (3 - Real.sqrt 3) / 6 * |D2| := htri
    _ ≤ (3 + Real.sqrt 3) / 6 * (117 / 400 * (dt * (2 - Real.sqrt 3)))
          + (3 - Real.sqrt 3) / 6 * (117 / 400 * (dt * (2 + Real.sqrt 3))) := by linarith
    _ = 117 / 400 * dt := hid0
    _ ≤ 7 / 10 * dt := hfin
  · have hv1 : odeV1 1 = Real.sqrt 3 - 1 := rfl
    have hv2 : odeV2 1 = -1 - Real.sqrt 3 := rfl
    simp only [Fin.mk_one] at hcomp ⊢
    rw [hcomp, hv1, hv2]
    have hr1 : (3 + Real.sqrt 3) / 6 * D1 * (Real.sqrt 3 - 1)
        = ((3 + Real.sqrt 3) / 6 * (Real.sqrt 3 - 1)) * D1 := by ring
    have hr2 : (3 - Real.sqrt 3) / 6 * D2 * (-1 - Real.sqrt 3)
        = (-((3 - Real.sqrt 3) / 6 * (1 + Real.sqrt 3))) * D2 := by ring
    rw [hr1, hr2]
    have ha1 : (0 : ℝ) ≤ (3 + Real.sqrt 3) / 6 * (Real.sqrt 3 - 1) := by nlinarith
    have hb1' : (0 : ℝ) ≤ (3 - Real.sqrt 3) / 6 * (1 + Real.sqrt 3) := by nlinarith
    have htri := abs_add (((3 + Real.sqrt 3) / 6 * (Real.sqrt 3 - 1)) * D1)
      ((-((3 - Real.sqrt 3) / 6 * (1 + Real.sqrt 3))) * D2)
    have e1 : |((3 + Real.sqrt 3) / 6 * (Real.sqrt 3 - 1)) * D1|
        = (3 + Real.sqrt 3) / 6 * (Real.sqrt 3 - 1) * |D1| := by
      rw [abs_mul, abs_of_nonneg ha1]
    have e2 : |(-((3 - Real.sqrt 3) / 6 * (1 + Real.sqrt 3))) * D2|
        = (3 - Real.sqrt 3) / 6 * (1 + Real.sqrt 3) * |D2| := by
      rw [abs_mul, abs_neg, abs_of_nonneg hb1']
    rw [e1, e2] at htri
    have hm1 := mul_le_mul_of_nonneg_left hb1 ha1
    have hm2 := mul_le_mul_of_nonneg_left hb2 hb1'
    have hid1 : (3 + Real.sqrt 3) / 6 * (Real.sqrt 3 - 1) * (117 / 400 * (dt * (2 - Real.sqrt 3)))
        + (3 - Real.sqrt 3) / 6 * (1 + Real.sqrt 3) * (117 / 400 * (dt * (2 + Real.sqrt 3)))
        = 39 / 100 * Real.sqrt 3 * dt := by
      linear_combination (-39 / 400 * Real.sqrt 3 * dt) * hs2
    have hfin : 39 / 100 * Real.sqrt 3 * dt ≤ 7 / 10 * dt := by nlinarith
    calc |((3 + Real.sqrt 3) / 6 * (Real.sqrt 3 - 1)) * D1
          + (-((3 - Real.sqrt 3) / 6 * (1 + Real.sqrt 3))) * D2|
        ≤ (3 + Real.sqrt 3) / 6 * (Real.sqrt 3 - 1) * |D1|
          + (3 - Real.sqrt 3) / 6 * (1 + Real.sqrt 3) * |D2| := htri
    _ ≤ (3 + Real.sqrt 3) / 6 * (Real.sqrt 3 - 1) * (117 / 400 * (dt * (2 - Real.sqrt 3)))
          + (3 - Real.sqrt 3) / 6 * (1 + Real.sqrt 3)
            * (117 / 400 * (dt * (2 + Real.sqrt 3))) := by linarith
    _ = 39 / 100 * Real.sqrt 3 * dt := hid1
    _ ≤ 7 / 10 * dt := hfin

/-- C8: for the notebook's scenario `A = [[-1, 1], [2, -3]]`, `x0 = (1, 0)`,
the Euler iterates stay within `1e-2` of the analytic solution
`x(t) = exp(A t) x0` componentwise at `dt = 0.01` for every step (in
particular over `t ∈ [0, 15]`, the notebook's 1500 steps), and the maximal
error decreases as `dt → 0`: it is bounded by `(7/10) dt` for every
`dt ∈ (0, 1/100]`. -/
theorem C8_euler_accuracy :
    (∀ n : ℕ, ∀ i : Fin 2,
        |eulerODE odeA odeX0 (1 / 100) n i - odeExact ((n : ℝ) * (1 / 100)) i| < 1 / 100) ∧
      ∀ dt : ℝ, 0 < dt → dt ≤ 1 / 100 → ∀ n : ℕ, ∀ i : Fin 2,
        |eulerODE odeA odeX0 dt n i - odeExact ((n : ℝ) * dt) i| ≤ 7 / 10 * dt := by
  refine ⟨fun n i => ?_, fun dt h0 h1 n i => odeEuler_error_bound dt h0 h1 n i⟩
  have h := odeEuler_error_bound (1 / 100) (by norm_num) le_rfl n i
  calc |eulerODE odeA odeX0 (1 / 100) n i - odeExact ((n : ℝ) * (1 / 100)) i|
      ≤ 7 / 10 * (1 / 100) := h
  _ < 1 / 100 := by norm_num

/-- Witness for C8 at a concrete instance: one Euler step at `dt = 1/100`. -/
theorem C8_euler_accuracy_witness :
    |eulerODE odeA odeX0 (1 / 100) 1 0 - odeExact ((1 : ℝ) * (1 / 100)) 0| < 1 / 100 := by
  have h := C8_euler_accuracy.1 1 0
  simpa using h

end OdeScenario

end Ctrl
